import Mathlib

/-!
Verification of `scripts/make_release_notes.py`, a rule-based translator
turning github-flavored changelog markdown into devsite release notes.

Strings are modelled as `List Char`.  The Python regular expressions of the
translator are modelled as explicit recursive matchers; the character
classes of Python `re` are modelled by their ASCII parts, which is
sufficient for every input of the claims.  The translation loop
(`Translator.translate`) is modelled with structural recursion on a fuel
equal to the input length; the progress property proved below shows the
fuel never runs out, so the model computes exactly the loop of the source.
-/

namespace ReleaseNotes

/-- Shorthand turning a string literal into its character list. -/
def S (s : String) : List Char := s.data

/-- ASCII part of the whitespace class of Python regular expressions. -/
def isSpaceChar (c : Char) : Bool :=
  decide (c = ' ') || decide (c = '\t') || decide (c = '\n') || decide (c = '\r') ||
    decide (c = '\x0b') || decide (c = '\x0c')

/-- ASCII part of the word-character class of Python regular expressions. -/
def isWordChar (c : Char) : Bool :=
  c.isAlpha || c.isDigit || decide (c = '_')

/-- Characters accepted as a list marker by the bullet rule, class `[*+-]`. -/
def isMarker (c : Char) : Bool :=
  decide (c = '*') || decide (c = '+') || decide (c = '-')

/-- Boolean prefix test on character lists. -/
def isPref : List Char → List Char → Bool
  | [], _ => true
  | _ :: _, [] => false
  | a :: as, b :: bs => decide (a = b) && isPref as bs

/-- Boolean suffix test on character lists. -/
def isSuf (s l : List Char) : Bool := isPref s.reverse l.reverse

/-- Sentinel `NO_HEADING` of the source: a product whose headings are dropped. -/
def NO_HEADING : List Char := S "PRODUCT HAS NO HEADING"

/-- Renderer configuration: the local repository identifier and the optional
product token (`None` in Python is `none`; the empty string is also falsy). -/
structure Renderer where
  local_repo : List Char
  product : Option (List Char)

/-- Lookup in the `CHANGE_TYPE_MAPPING` dict with the tag itself as default. -/
def CHANGE_TYPE_MAPPING (tag : List Char) : List Char :=
  if tag = S "added" then S "feature" else tag

/-- Literal `"/issues/"` used by the issue-link renderers. -/
def issuesLit : List Char := S "/issues/"

/-- Literal `"https:"`, the optional scheme prefix of `Renderer.url`. -/
def httpsColon : List Char := S "https:"

/-- Host part `//github.com/` of the issue-url pattern of `Renderer.url`.
The dot of `github.com` is an unescaped `.` in the source pattern, hence the
wildcard position.  Returns the text after the 13 host characters. -/
def ghHost : List Char → Option (List Char)
  | '/' :: '/' :: 'g' :: 'i' :: 't' :: 'h' :: 'u' :: 'b' :: _ :: 'c' :: 'o' :: 'm' :: '/' :: rest =>
      some rest
  | _ => none

/-- Digits of `(\d+)$` : the whole tail must be a nonempty digit run, or a
nonempty digit run followed by one final newline (Python `$`). -/
def validDigitsTail (t : List Char) : Option (List Char) :=
  let ds := t.takeWhile Char.isDigit
  if ds.isEmpty then none
  else
    match t.dropWhile Char.isDigit with
    | [] => some ds
    | ['\n'] => some ds
    | _ => none

/-- Split `repo ++ "/issues/" ++ digits` with the greedy (rightmost) choice of
the `/issues/` occurrence, as the backtracking of `(.*)/issues/(\d+)$` does. -/
def findIssueSplit : List Char → Option (List Char × List Char)
  | [] => none
  | c :: rest =>
    match findIssueSplit rest with
    | some (r, i) => some (c :: r, i)
    | none =>
      if isPref issuesLit (c :: rest) then
        match validDigitsTail ((c :: rest).drop issuesLit.length) with
        | some ds => some ([], ds)
        | none => none
      else none

/-- Matcher of the pattern `^(?:https:)?(//github.com/(.*)/issues/(\d+))$` of
`Renderer.url`.  Returns `(link, repo, issue)`, the captured groups 1, 2, 3.
The repo group is matched by `(.*)`, which cannot cross a newline. -/
def issueUrlParse (u : List Char) : Option (List Char × List Char × List Char) :=
  let u2 := if isPref httpsColon u then u.drop httpsColon.length else u
  match ghHost u2 with
  | some rest =>
    match findIssueSplit rest with
    | some (repo, issue) =>
      if repo.any (fun c => decide (c = '\n')) then none
      else some (u2.take 13 ++ repo ++ issuesLit ++ issue, repo, issue)
    | none => none
  | none => none

/-- `Renderer.heading` of the source: with a truthy product, replace the
heading by the product heading (or nothing for the sentinel); otherwise pass
the raw heading through. -/
def Renderer.heading (rd : Renderer) (h : List Char) : List Char :=
  match rd.product with
  | none => h
  | some p =>
    if p = [] then h
    else if p = NO_HEADING then []
    else S "### " ++ p ++ ['\n']

/-- `Renderer.bullet`: all bullets are normalized to `*` style. -/
def Renderer.bullet (rd : Renderer) (spacing : List Char) : List Char :=
  spacing ++ ['*', ' ']

/-- `Renderer.change_type`: map through the synonym table and wrap in a
double-braced macro. -/
def Renderer.change_type (rd : Renderer) (tag : List Char) : List Char :=
  ['\x7b', '\x7b'] ++ CHANGE_TYPE_MAPPING tag ++ ['\x7d', '\x7d']

/-- `Renderer.url`: rewrite a github issue url as a markdown link, with short
text for the local repository; other urls pass through unchanged. -/
def Renderer.url (rd : Renderer) (u : List Char) : List Char :=
  match issueUrlParse u with
  | some (link, repo, issue) =>
    let txt := if repo = rd.local_repo then '#' :: issue else repo ++ '#' :: issue
    '[' :: (txt ++ ']' :: '(' :: (link ++ [')']))
  | none => u

/-- `Renderer.local_issue_link`: expand `(#n)` into a parenthesized markdown
link into the local repository's issue tracker. -/
def Renderer.local_issue_link (rd : Renderer) (issue : List Char) : List Char :=
  let link := S "//github.com/" ++ rd.local_repo ++ issuesLit ++ issue
  '(' :: '[' :: '#' :: (issue ++ ']' :: '(' :: (link ++ [')', ')']))

/-- `Renderer.text`: passthrough. -/
def Renderer.text (rd : Renderer) (t : List Char) : List Char := t

/-- Rule `heading = ^#.*` : a `#` first character and everything up to (not
including) the end of the line.  Returns the matched span. -/
def matchHeading (t : List Char) : Option (List Char) :=
  match t with
  | [] => none
  | c :: r =>
    if c = '#' then some (c :: r.takeWhile (fun x => !decide (x = '\n'))) else none

/-- Test used by the bullet rule for the mandatory space after the marker. -/
def nextSp : List Char → Bool
  | [] => false
  | c :: _ => decide (c = ' ')

/-- Rule `bullet = ^(\s*)[*+-] ` : returns the captured spacing and the
length of the whole match. -/
def matchBullet (t : List Char) : Option (List Char × Nat) :=
  let w := t.takeWhile isSpaceChar
  match t.dropWhile isSpaceChar with
  | [] => none
  | m :: r2 => if isMarker m && nextSp r2 then some (w, w.length + 2) else none

/-- Test for an opening parenthesis, the negative lookahead `(?!\()`. -/
def nextParen : List Char → Bool
  | [] => false
  | c :: _ => decide (c = '(')

/-- Rule `change_type = \[(\w+)\](?!\()` (anchored by `re.match`): returns
the captured tag word and the length of the whole match. -/
def matchChangeType (t : List Char) : Option (List Char × Nat) :=
  match t with
  | [] => none
  | c :: r =>
    if c = '[' then
      let w := r.takeWhile isWordChar
      if w.isEmpty then none
      else
        match r.dropWhile isWordChar with
        | [] => none
        | c2 :: rest =>
          if c2 = ']' then
            if nextParen rest then none else some (w, w.length + 2)
          else none
    else none

/-- Literal `"https://"`. -/
def httpsScheme : List Char := S "https://"

/-- Literal `"http://"`. -/
def httpScheme : List Char := S "http://"

/-- Character class `[^\s<]` of the url rule body. -/
def urlChar (c : Char) : Bool := !isSpaceChar c && !decide (c = '<')

/-- Complement of the final-character class `[^<.,:;"\')\]\s]` of the url
rule: characters the url may not end with. -/
def isTrailBad (c : Char) : Bool :=
  isSpaceChar c || decide (c = '<') || decide (c = '.') || decide (c = ',') ||
    decide (c = ':') || decide (c = ';') || decide (c = '\x22') ||
    decide (c = '\x27') || decide (c = ')') || decide (c = ']')

/-- Drop the run of excluded characters at the end of a list. -/
def dropTrailBad (l : List Char) : List Char :=
  (l.reverse.dropWhile isTrailBad).reverse

/-- Body of the url rule after the scheme: greedy `[^\s<]+` followed by one
character of the final class amounts to taking the maximal `[^\s<]` run,
trimming excluded trailing characters, and requiring at least 2 characters. -/
def urlCore (scheme rest : List Char) : Option (List Char) :=
  let R := rest.takeWhile urlChar
  let R2 := dropTrailBad R
  if 2 ≤ R2.length then some (scheme ++ R2) else none

/-- Rule `url = ^(https?://[^\s<]+[^<.,:;"\')\]\s])` : returns the captured
group, which is the whole match. -/
def matchUrl (t : List Char) : Option (List Char) :=
  if isPref httpsScheme t then urlCore httpsScheme (t.drop httpsScheme.length)
  else if isPref httpScheme t then urlCore httpScheme (t.drop httpScheme.length)
  else none

/-- Rule `local_issue_link = \(#(\d+)\)` (anchored by `re.match`): returns
the captured digits and the length of the whole match. -/
def matchLocalIssue (t : List Char) : Option (List Char × Nat) :=
  match t with
  | c1 :: c2 :: r =>
    if c1 = '(' then
      if c2 = '#' then
        let ds := r.takeWhile Char.isDigit
        if ds.isEmpty then none
        else
          match r.dropWhile Char.isDigit with
          | [] => none
          | c3 :: _ => if c3 = ')' then some (ds, ds.length + 3) else none
      else none
    else none
  | _ => none

/-- Trigger characters of the fallback text rule's lookahead `[(\[\n]`. -/
def stopChar (c : Char) : Bool :=
  decide (c = '(') || decide (c = '[') || decide (c = '\n')

/-- Lookahead alternative `https?://` of the text rule. -/
def startsHttp (t : List Char) : Bool :=
  isPref httpScheme t || isPref httpsScheme t

/-- Scan of the text rule after its first (mandatory) character: number of
further characters before the next trigger position. -/
def textGo : List Char → Nat
  | [] => 0
  | c :: r => if stopChar c || startsHttp (c :: r) then 0 else 1 + textGo r

/-- Length matched by rule `text = ^[\s\S]+?(?=[(\[\n]|https?://|$)` : the
lazy repetition takes at least one character, then stops at the first
trigger position (the `$` alternative before a final newline is subsumed by
the `\n` trigger). -/
def textLen : List Char → Nat
  | [] => 0
  | _ :: r => 1 + textGo r

/-- One iteration of the translation loop: try the rules in the order of the
source's rule table and render the first match.  Returns the rendered output
and the number of consumed characters. -/
def step (R : Renderer) (t : List Char) : List Char × Nat :=
  match matchHeading t with
  | some s => (R.heading s, s.length)
  | none =>
    match matchBullet t with
    | some wn => (R.bullet wn.1, wn.2)
    | none =>
      match matchChangeType t with
      | some wn => (R.change_type wn.1, wn.2)
      | none =>
        match matchUrl t with
        | some u => (R.url u, u.length)
        | none =>
          match matchLocalIssue t with
          | some dn => (R.local_issue_link dn.1, dn.2)
          | none => (R.text (t.take (textLen t)), textLen t)

/-- Fuelled translation loop; the fuel only bounds the number of iterations.
Since every iteration consumes at least one character (proved below), fuel
equal to the input length always suffices, and the `0` case is reached only
with empty remaining text. -/
def translateF (R : Renderer) : Nat → List Char → List Char
  | 0, _ => []
  | _ + 1, [] => []
  | f + 1, c :: r =>
    let s := step R (c :: r)
    s.1 ++ translateF R f ((c :: r).drop s.2)

/-- `Translator.translate` of the source. -/
def translate (R : Renderer) (t : List Char) : List Char :=
  translateF R t.length t

/-- Fuelled list of the lengths of the matched spans of the loop, in order. -/
def spansF (R : Renderer) : Nat → List Char → List Nat
  | 0, _ => []
  | _ + 1, [] => []
  | f + 1, c :: r =>
    let s := step R (c :: r)
    s.2 :: spansF R f ((c :: r).drop s.2)

/-- Lengths of the matched spans of a whole translation, in match order. -/
def spans (R : Renderer) (t : List Char) : List Nat :=
  spansF R t.length t

/-- Literal ssh alternative `git@github\.com:` of `find_local_repo`. -/
def sshPre : List Char := S "git@github.com:"

/-- Literal https alternative `https://github\.com/` of `find_local_repo`. -/
def httpsRepoPre : List Char := S "https://github.com/"

/-- Literal `".git"`. -/
def gitSuf : List Char := S ".git"

/-- Removal of the single final newline tolerated by Python `$`. -/
def stripNl (r : List Char) : List Char :=
  match r.getLast? with
  | some c => if c = '\n' then r.dropLast else r
  | none => r

/-- Matcher of `(.*)\.git$` : the tail may end in one final newline (Python
`$`), must then end in `.git`, and the capture before it, matched by `.*`,
cannot contain a newline. -/
def matchRepoTail (r : List Char) : Option (List Char) :=
  let core := stripNl r
  if isSuf gitSuf core then
    let a := core.take (core.length - 4)
    if a.any (fun c => decide (c = '\n')) then none else some a
  else none

/-- Matcher of `^(?:git@github\.com:|https://github\.com/)(.*)\.git$`. -/
def matchRemote (u : List Char) : Option (List Char) :=
  if isPref sshPre u then matchRepoTail (u.drop sshPre.length)
  else if isPref httpsRepoPre u then matchRepoTail (u.drop httpsRepoPre.length)
  else none

/-- `find_local_repo` of the source, as a function of the remote url text
obtained from git (the subprocess call is the external input).  A failing
match raises `LookupError`, modelled as `Except.error` with the message. -/
def find_local_repo (u : List Char) : Except (List Char) (List Char) :=
  match matchRemote u with
  | some repo => Except.ok repo
  | none => Except.error (S "Can\x27t figure local repo from remote URL " ++ u)

/-- Spec-side (claim C7) tail test: ends in `.git` with a newline-free
`<owner/repo>` part before it. -/
def shapeTail (m : List Char) : Bool :=
  isSuf gitSuf m && !(m.take (m.length - 4)).any (fun c => decide (c = '\n'))

/-- Spec-side (claim C7) shape: exactly `git@github.com:<owner/repo>.git` or
`https://github.com/<owner/repo>.git` with `<owner/repo>` newline-free. -/
def declaredShape (u : List Char) : Bool :=
  (isPref sshPre u && shapeTail (u.drop sshPre.length)) ||
    (isPref httpsRepoPre u && shapeTail (u.drop httpsRepoPre.length))

/-- Amended shape: one of the two declared shapes, optionally followed by a
single trailing newline (which Python's `$` tolerates). -/
def declaredShapeNl (u : List Char) : Bool :=
  declaredShape u ||
    (match u.getLast? with
     | some c => if c = '\n' then declaredShape u.dropLast else false
     | none => false)

/-- Captured `<owner/repo>` part of a string of the amended shape. -/
def declaredCapture (u : List Char) : List Char :=
  let core := stripNl u
  let m := if isPref sshPre core then core.drop sshPre.length
           else core.drop httpsRepoPre.length
  m.take (m.length - 4)

/-- Scanner for a `#` at a line start (start of text or right after a
newline); `b` records whether the current position is a line start. -/
def hashLS (b : Bool) : List Char → Bool
  | [] => false
  | c :: r => (b && decide (c = '#')) || hashLS (decide (c = '\n')) r

/-- Line-start state transition of the bullet-trigger scanner: a position is
at a (possibly whitespace-indented) line start after a newline, or after
whitespace that was itself at a line start. -/
def lsmState (b : Bool) (c : Char) : Bool :=
  decide (c = '\n') || (b && isSpaceChar c)

/-- Scanner for a list marker (followed by a space) at a line start, where a
line start may be indented by whitespace, matching what the bullet rule can
reach: its `\s*` prefix only ever matches at the start of the text or right
after a previously consumed span ending before a newline. -/
def hasLSM (b : Bool) : List Char → Bool
  | [] => false
  | c :: r => (b && isMarker c && nextSp r) || hasLSM (lsmState b c) r

/-- Test for a closing square bracket. -/
def nextRB : List Char → Bool
  | c :: _ => decide (c = ']')
  | [] => false

/-- Test for a closing parenthesis. -/
def nextRP : List Char → Bool
  | c :: _ => decide (c = ')')
  | [] => false

/-- Bracketed word `[word]` beginning at this position. -/
def bwHere : List Char → Bool
  | [] => false
  | c :: r =>
    decide (c = '[') && !(r.takeWhile isWordChar).isEmpty &&
      nextRB (r.dropWhile isWordChar)

/-- Scanner for a bracketed word `[word]` anywhere in the text. -/
def hasBracketWord : List Char → Bool
  | [] => false
  | c :: r => bwHere (c :: r) || hasBracketWord r

/-- Scanner for a `http://` or `https://` scheme anywhere in the text. -/
def hasUrlSub : List Char → Bool
  | [] => false
  | c :: r => startsHttp (c :: r) || hasUrlSub r

/-- Parenthesized issue reference `(#digits)` beginning at this position. -/
def lirHere : List Char → Bool
  | c1 :: c2 :: r =>
    decide (c1 = '(') && decide (c2 = '#') && !(r.takeWhile Char.isDigit).isEmpty &&
      nextRP (r.dropWhile Char.isDigit)
  | _ => false

/-- Scanner for a `(#digits)` reference anywhere in the text. -/
def hasIssueRef : List Char → Bool
  | [] => false
  | c :: r => lirHere (c :: r) || hasIssueRef r

theorem takeWhile_length_le (p : Char → Bool) (l : List Char) :
    (l.takeWhile p).length ≤ l.length :=
  List.IsPrefix.length_le (List.takeWhile_prefix p)

theorem dropWhile_length_le (p : Char → Bool) : ∀ l : List Char,
    (l.dropWhile p).length ≤ l.length := by
  intro l
  induction l with
  | nil => simp
  | cons c r ih =>
    rw [List.dropWhile_cons]
    split
    · exact Nat.le_trans ih (by simp)
    · simp

theorem dropTrailBad_length_le (l : List Char) : (dropTrailBad l).length ≤ l.length := by
  have h := dropWhile_length_le isTrailBad l.reverse
  simpa [dropTrailBad] using h

theorem nextSp_true {l : List Char} (h : nextSp l = true) : ∃ r3, l = ' ' :: r3 := by
  cases l with
  | nil => simp [nextSp] at h
  | cons a r3 =>
    simp only [nextSp, decide_eq_true_eq] at h
    exact ⟨r3, by rw [h]⟩

theorem isPref_parts {p t : List Char} (h : isPref p t = true) :
    p ++ t.drop p.length = t := by
  induction p generalizing t with
  | nil => simp
  | cons a as ih =>
    cases t with
    | nil => simp [isPref] at h
    | cons b bs =>
      simp only [isPref, Bool.and_eq_true, decide_eq_true_eq] at h
      obtain ⟨hab, hp⟩ := h
      subst hab
      simpa using ih hp

theorem isPref_self_append (p x : List Char) : isPref p (p ++ x) = true := by
  induction p with
  | nil => rfl
  | cons a as ih => simpa [isPref] using ih

theorem isPref_extend {p l : List Char} (x : List Char) (h : isPref p l = true) :
    isPref p (l ++ x) = true := by
  induction p generalizing l with
  | nil => rfl
  | cons a as ih =>
    cases l with
    | nil => simp [isPref] at h
    | cons b bs =>
      simp only [isPref, Bool.and_eq_true] at h ⊢
      exact ⟨h.1, ih h.2⟩

theorem matchHeading_bounds {t s : List Char} (h : matchHeading t = some s) :
    1 ≤ s.length ∧ s.length ≤ t.length := by
  cases t with
  | nil => simp [matchHeading] at h
  | cons c r =>
    simp only [matchHeading] at h
    split at h
    · cases h
      constructor
      · simp
      · simpa [Nat.succ_le_succ_iff] using
          List.IsPrefix.length_le (List.takeWhile_prefix _)
    · cases h

theorem matchBullet_bounds {t : List Char} {wn : List Char × Nat}
    (h : matchBullet t = some wn) : 1 ≤ wn.2 ∧ wn.2 ≤ t.length := by
  simp only [matchBullet] at h
  split at h
  · cases h
  · rename_i m r2 hd
    split at h
    · rename_i hc
      cases h
      obtain ⟨r3, hr3⟩ := nextSp_true (Bool.and_eq_true_iff.mp hc).2
      have ht : t.takeWhile isSpaceChar ++ (m :: r2) = t := by
        rw [← hd]; exact List.takeWhile_append_dropWhile isSpaceChar t
      have hlen : t.length = (t.takeWhile isSpaceChar).length + (m :: r2).length := by
        conv_lhs => rw [← ht]
        simp
      subst hr3
      simp only [List.length_cons] at hlen
      omega
    · cases h

theorem matchChangeType_bounds {t : List Char} {wn : List Char × Nat}
    (h : matchChangeType t = some wn) : 1 ≤ wn.2 ∧ wn.2 ≤ t.length := by
  cases t with
  | nil => simp [matchChangeType] at h
  | cons c r =>
    simp only [matchChangeType] at h
    split at h
    · split at h
      · cases h
      · split at h
        · cases h
        · rename_i c2 rest hd
          split at h
          · split at h
            · cases h
            · cases h
              have hr : r.takeWhile isWordChar ++ (c2 :: rest) = r := by
                rw [← hd]; exact List.takeWhile_append_dropWhile isWordChar r
              have hlen : r.length = (r.takeWhile isWordChar).length + (c2 :: rest).length := by
                conv_lhs => rw [← hr]
                simp
              simp only [List.length_cons] at hlen ⊢
              omega
          · cases h
    · cases h

theorem matchUrl_bounds {t u : List Char} (h : matchUrl t = some u) :
    1 ≤ u.length ∧ u.length ≤ t.length := by
  simp only [matchUrl] at h
  have core : ∀ scheme : List Char, isPref scheme t = true →
      urlCore scheme (t.drop scheme.length) = some u →
      1 ≤ u.length ∧ u.length ≤ t.length := by
    intro scheme hpref hc
    simp only [urlCore] at hc
    split at hc
    · rename_i hlen
      cases hc
      have h1 : (dropTrailBad ((t.drop scheme.length).takeWhile urlChar)).length ≤
          ((t.drop scheme.length).takeWhile urlChar).length :=
        dropTrailBad_length_le _
      have h2 : ((t.drop scheme.length).takeWhile urlChar).length ≤
          (t.drop scheme.length).length := takeWhile_length_le _ _
      have h3 : scheme.length + (t.drop scheme.length).length = t.length := by
        conv_rhs => rw [← isPref_parts hpref]
        simp
      simp only [List.length_append]
      omega
    · cases hc
  split at h
  · rename_i hp
    exact core httpsScheme hp h
  · split at h
    · rename_i hp
      exact core httpScheme hp h
    · cases h

theorem matchLocalIssue_bounds {t : List Char} {dn : List Char × Nat}
    (h : matchLocalIssue t = some dn) : 1 ≤ dn.2 ∧ dn.2 ≤ t.length := by
  match t with
  | [] => simp [matchLocalIssue] at h
  | [c] => simp [matchLocalIssue] at h
  | c1 :: c2 :: r =>
    simp only [matchLocalIssue] at h
    split at h
    · split at h
      · split at h
        · cases h
        · split at h
          · cases h
          · rename_i c3 rest hd
            split at h
            · cases h
              have hr : r.takeWhile Char.isDigit ++ (c3 :: rest) = r := by
                rw [← hd]; exact List.takeWhile_append_dropWhile Char.isDigit r
              have hlen : r.length = (r.takeWhile Char.isDigit).length + (c3 :: rest).length := by
                conv_lhs => rw [← hr]
                simp
              simp only [List.length_cons] at hlen ⊢
              omega
            · cases h
      · cases h
    · cases h

theorem textGo_le (r : List Char) : textGo r ≤ r.length := by
  induction r with
  | nil => simp [textGo]
  | cons c r ih =>
    simp only [textGo]
    split
    · simp
    · simpa [Nat.add_comm 1 (textGo r), Nat.succ_le_succ_iff] using ih

theorem textLen_bounds {t : List Char} (h : t ≠ []) :
    1 ≤ textLen t ∧ textLen t ≤ t.length := by
  cases t with
  | nil => exact absurd rfl h
  | cons c r =>
    simp only [textLen, List.length_cons]
    have := textGo_le r
    omega

theorem step_bounds (R : Renderer) {t : List Char} (h : t ≠ []) :
    1 ≤ (step R t).2 ∧ (step R t).2 ≤ t.length := by
  simp only [step]
  split
  · rename_i s hs
    exact matchHeading_bounds hs
  · split
    · rename_i wn hw
      obtain ⟨h1, h2⟩ := matchBullet_bounds hw
      exact ⟨h1, h2⟩
    · split
      · rename_i wn hw
        obtain ⟨h1, h2⟩ := matchChangeType_bounds hw
        exact ⟨h1, h2⟩
      · split
        · rename_i u hu
          exact matchUrl_bounds hu
        · split
          · rename_i dn hd
            obtain ⟨h1, h2⟩ := matchLocalIssue_bounds hd
            exact ⟨h1, h2⟩
          · exact textLen_bounds h

theorem translateF_congr (R : Renderer) :
    ∀ f f' t, t.length ≤ f → t.length ≤ f' →
      translateF R f t = translateF R f' t := by
  intro f
  induction f with
  | zero =>
    intro f' t hf hf'
    have ht : t = [] := List.eq_nil_of_length_eq_zero (Nat.le_zero.mp hf)
    subst ht
    cases f' <;> rfl
  | succ f ih =>
    intro f' t hf hf'
    cases t with
    | nil => cases f' <;> rfl
    | cons c r =>
      cases f' with
      | zero => simp at hf'
      | succ f'' =>
        simp only [translateF]
        have hb := step_bounds R (t := c :: r) (by simp)
        have hlen : ((c :: r).drop (step R (c :: r)).2).length ≤ f := by
          rw [List.length_drop]
          simp only [List.length_cons] at hf ⊢
          omega
        have hlen' : ((c :: r).drop (step R (c :: r)).2).length ≤ f'' := by
          rw [List.length_drop]
          simp only [List.length_cons] at hf' ⊢
          omega
        rw [ih f'' _ hlen hlen']

theorem translate_cons (R : Renderer) {t : List Char} (h : t ≠ []) :
    translate R t = (step R t).1 ++ translate R (t.drop (step R t).2) := by
  cases t with
  | nil => exact absurd rfl h
  | cons c r =>
    show translateF R (r.length + 1) (c :: r) = _
    simp only [translateF, translate]
    congr 1
    apply translateF_congr
    · rw [List.length_drop]
      have hb := step_bounds R (t := c :: r) (by simp)
      simp only [List.length_cons]
      omega
    · exact Nat.le_refl _

theorem spansF_facts (R : Renderer) :
    ∀ f t, t.length ≤ f →
      (spansF R f t).sum = t.length ∧
        (spansF R f t).all (fun n => decide (1 ≤ n)) = true := by
  intro f
  induction f with
  | zero =>
    intro t hf
    have ht : t = [] := List.eq_nil_of_length_eq_zero (Nat.le_zero.mp hf)
    subst ht
    simp [spansF]
  | succ f ih =>
    intro t hf
    cases t with
    | nil => simp [spansF]
    | cons c r =>
      have hb := step_bounds R (t := c :: r) (by simp)
      have hlen : ((c :: r).drop (step R (c :: r)).2).length ≤ f := by
        rw [List.length_drop]
        simp only [List.length_cons] at hf ⊢
        omega
      obtain ⟨ihsum, ihall⟩ := ih _ hlen
      simp only [spansF, List.sum_cons, List.all_cons, ihsum, ihall,
        List.length_drop, Bool.and_true]
      constructor
      · simp only [List.length_cons] at hb ⊢
        omega
      · simpa using hb.1

theorem mh_none {t : List Char} (h1 : hashLS true t = false) :
    matchHeading t = none := by
  cases t with
  | nil => rfl
  | cons c r =>
    simp only [matchHeading]
    split
    · rename_i hc
      subst hc
      simp [hashLS] at h1
    · rfl

theorem lsm_ws_marker : ∀ w : List Char, (∀ c ∈ w, isSpaceChar c = true) →
    ∀ {m : Char} {r2 : List Char}, isMarker m = true → nextSp r2 = true →
      hasLSM true (w ++ m :: r2) = true := by
  intro w
  induction w with
  | nil =>
    intro _ m r2 hm hs
    simp [hasLSM, hm, hs]
  | cons c w' ih =>
    intro hw m r2 hm hs
    have hc : isSpaceChar c = true := hw c (by simp)
    have hst : lsmState true c = true := by
      simp [lsmState, hc]
    simp only [List.cons_append, hasLSM, hst, Bool.or_eq_true]
    right
    exact ih (fun x hx => hw x (by simp [hx])) hm hs

theorem mb_none {t : List Char} (h2 : hasLSM true t = false) :
    matchBullet t = none := by
  cases hmb : matchBullet t with
  | none => rfl
  | some wn =>
    exfalso
    simp only [matchBullet] at hmb
    split at hmb
    · cases hmb
    · rename_i m r2 hd
      split at hmb
      · rename_i hc
        obtain ⟨hm, hs⟩ := Bool.and_eq_true_iff.mp hc
        have ht : t.takeWhile isSpaceChar ++ (m :: r2) = t :=
          hd ▸ List.takeWhile_append_dropWhile isSpaceChar t
        have := lsm_ws_marker (t.takeWhile isSpaceChar)
          (fun x hx => List.mem_takeWhile_imp hx) hm hs
        rw [ht, h2] at this
        cases this
      · cases hmb

theorem mct_none {t : List Char} (h3 : hasBracketWord t = false) :
    matchChangeType t = none := by
  cases hm : matchChangeType t with
  | none => rfl
  | some wn =>
    exfalso
    cases t with
    | nil => simp [matchChangeType] at hm
    | cons c r =>
      simp only [hasBracketWord, Bool.or_eq_false_iff] at h3
      simp only [matchChangeType] at hm
      split at hm
      · rename_i hc
        split at hm
        · cases hm
        · rename_i hw
          split at hm
          · cases hm
          · rename_i c2 rest hd
            split at hm
            · rename_i hc2
              have hw' : (r.takeWhile isWordChar).isEmpty = false := by
                cases hempty : (r.takeWhile isWordChar).isEmpty
                · rfl
                · exact absurd hempty hw
              have hbw : bwHere (c :: r) = true := by
                simp [bwHere, hc, hw', hd, nextRB, hc2]
              rw [h3.1] at hbw
              cases hbw
            · cases hm
      · cases hm

theorem mu_none {t : List Char} (h4 : hasUrlSub t = false) :
    matchUrl t = none := by
  have hs : startsHttp t = false := by
    cases t with
    | nil => decide
    | cons c r =>
      simp only [hasUrlSub, Bool.or_eq_false_iff] at h4
      exact h4.1
  simp only [startsHttp, Bool.or_eq_false_iff] at hs
  simp [matchUrl, hs.1, hs.2]

theorem mli_none {t : List Char} (h5 : hasIssueRef t = false) :
    matchLocalIssue t = none := by
  cases hm : matchLocalIssue t with
  | none => rfl
  | some dn =>
    exfalso
    match t, hm with
    | c1 :: c2 :: r, hm =>
      simp only [hasIssueRef, Bool.or_eq_false_iff] at h5
      simp only [matchLocalIssue] at hm
      split at hm
      · rename_i hc1
        split at hm
        · rename_i hc2
          split at hm
          · cases hm
          · rename_i hds
            split at hm
            · cases hm
            · rename_i c3 rest hd
              split at hm
              · rename_i hc3
                have hds' : (r.takeWhile Char.isDigit).isEmpty = false := by
                  cases hempty : (r.takeWhile Char.isDigit).isEmpty
                  · rfl
                  · exact absurd hempty hds
                have hlir : lirHere (c1 :: c2 :: r) = true := by
                  simp [lirHere, hc1, hc2, hds', hd, nextRP, hc3]
                rw [h5.1] at hlir
                cases hlir
              · cases hm
        · cases hm
      · cases hm

/-- Line-start-flag after scanning a block of text, for the `#` scanner. -/
def hashFold (b : Bool) (u : List Char) : Bool :=
  u.foldl (fun _ c => decide (c = '\n')) b

theorem hashLS_append_false : ∀ (u : List Char) (b : Bool) (v : List Char),
    hashLS b (u ++ v) = false → hashLS (hashFold b u) v = false := by
  intro u
  induction u with
  | nil => intro b v h; exact h
  | cons c u' ih =>
    intro b v h
    simp only [List.cons_append, hashLS, Bool.or_eq_false_iff] at h
    exact ih _ v h.2

theorem hashLS_head {b b' : Bool} {c : Char} {r : List Char} (hc : ¬(c = '#')) :
    hashLS b (c :: r) = hashLS b' (c :: r) := by
  simp [hashLS, hc]

/-- Line-start state after scanning a block of text, for the bullet scanner. -/
def lsmFold (b : Bool) (u : List Char) : Bool :=
  u.foldl lsmState b

theorem hasLSM_append_false : ∀ (u : List Char) (b : Bool) (v : List Char),
    hasLSM b (u ++ v) = false → hasLSM (lsmFold b u) v = false := by
  intro u
  induction u with
  | nil => intro b v h; exact h
  | cons c u' ih =>
    intro b v h
    simp only [List.cons_append, hasLSM, Bool.or_eq_false_iff] at h
    exact ih _ v h.2

theorem hasLSM_head {b b' : Bool} {c : Char} {r : List Char} (hc : stopChar c = true) :
    hasLSM b (c :: r) = hasLSM b' (c :: r) := by
  simp only [stopChar, Bool.or_eq_true, decide_eq_true_eq] at hc
  have hmk : isMarker c = false := by
    rcases hc with (h | h) | h <;> subst h <;> decide
  have hst : ∀ x : Bool, lsmState x c = lsmState b c := by
    intro x
    rcases hc with (h | h) | h <;> subst h <;> cases x <;> cases b <;> decide
  simp only [hasLSM, hmk, Bool.and_false, Bool.false_and, Bool.false_or, hst b']

theorem hbw_drop : ∀ t : List Char, hasBracketWord t = false →
    ∀ n, hasBracketWord (t.drop n) = false := by
  intro t
  induction t with
  | nil => intro _ n; simp [hasBracketWord]
  | cons c r ih =>
    intro h n
    cases n with
    | zero => exact h
    | succ m =>
      rw [List.drop_succ_cons]
      exact ih (Bool.or_eq_false_iff.mp h).2 m

theorem hus_drop : ∀ t : List Char, hasUrlSub t = false →
    ∀ n, hasUrlSub (t.drop n) = false := by
  intro t
  induction t with
  | nil => intro _ n; simp [hasUrlSub]
  | cons c r ih =>
    intro h n
    cases n with
    | zero => exact h
    | succ m =>
      rw [List.drop_succ_cons]
      exact ih (Bool.or_eq_false_iff.mp h).2 m

theorem hir_drop : ∀ t : List Char, hasIssueRef t = false →
    ∀ n, hasIssueRef (t.drop n) = false := by
  intro t
  induction t with
  | nil => intro _ n; simp [hasIssueRef]
  | cons c r ih =>
    intro h n
    cases n with
    | zero => exact h
    | succ m =>
      rw [List.drop_succ_cons]
      exact ih (Bool.or_eq_false_iff.mp h).2 m

theorem textGo_drop : ∀ r : List Char,
    r.drop (textGo r) = [] ∨
      ∃ c v, r.drop (textGo r) = c :: v ∧
        (stopChar c = true ∨ startsHttp (c :: v) = true) := by
  intro r
  induction r with
  | nil => left; rfl
  | cons c r' ih =>
    by_cases h : (stopChar c || startsHttp (c :: r')) = true
    · right
      refine ⟨c, r', ?_, ?_⟩
      · simp [textGo, h]
      · exact Bool.or_eq_true_iff.mp h
    · have hg : textGo (c :: r') = 1 + textGo r' := by
        simp [textGo, h]
      rw [hg, Nat.add_comm, List.drop_succ_cons]
      exact ih

theorem stop_ne_hash {c : Char} (h : stopChar c = true) : ¬(c = '#') := by
  intro hc
  subst hc
  exact absurd h (by decide)

theorem passthroughF (R : Renderer) : ∀ f t, t.length ≤ f →
    hashLS true t = false → hasLSM true t = false → hasBracketWord t = false →
    hasUrlSub t = false → hasIssueRef t = false → translateF R f t = t := by
  intro f
  induction f with
  | zero =>
    intro t hf _ _ _ _ _
    have ht : t = [] := List.eq_nil_of_length_eq_zero (Nat.le_zero.mp hf)
    subst ht
    rfl
  | succ f ih =>
    intro t hf h1 h2 h3 h4 h5
    cases t with
    | nil => rfl
    | cons c r =>
      have hstep : step R (c :: r) =
          (R.text ((c :: r).take (textLen (c :: r))), textLen (c :: r)) := by
        simp [step, mh_none h1, mb_none h2, mct_none h3, mu_none h4, mli_none h5]
      have hdrop : (c :: r).drop (textLen (c :: r)) = r.drop (textGo r) := by
        show (c :: r).drop (1 + textGo r) = r.drop (textGo r)
        rw [Nat.add_comm, List.drop_succ_cons]
      have hsplit : (c :: r).take (textLen (c :: r)) ++ (c :: r).drop (textLen (c :: r)) =
          c :: r := List.take_append_drop _ _
      -- conditions on the remaining suffix
      have h3' : hasBracketWord ((c :: r).drop (textLen (c :: r))) = false :=
        hbw_drop _ h3 _
      have h4' : hasUrlSub ((c :: r).drop (textLen (c :: r))) = false :=
        hus_drop _ h4 _
      have h5' : hasIssueRef ((c :: r).drop (textLen (c :: r))) = false :=
        hir_drop _ h5 _
      have hstructure : (c :: r).drop (textLen (c :: r)) = [] ∨
          ∃ c' v', (c :: r).drop (textLen (c :: r)) = c' :: v' ∧ stopChar c' = true := by
        rw [hdrop]
        rcases textGo_drop r with h | ⟨c', v', heq, hst | hht⟩
        · left; exact h
        · right; exact ⟨c', v', heq, hst⟩
        · exfalso
          have : hasUrlSub (r.drop (textGo r)) = false := by rw [← hdrop]; exact h4'
          rw [heq] at this
          simp only [hasUrlSub, hht, Bool.true_or] at this
          cases this
      have h1' : hashLS true ((c :: r).drop (textLen (c :: r))) = false := by
        have hB := hashLS_append_false ((c :: r).take (textLen (c :: r))) true
          ((c :: r).drop (textLen (c :: r))) (by rw [hsplit]; exact h1)
        rcases hstructure with hnil | ⟨c', v', heq, hst⟩
        · rw [hnil]; rfl
        · rw [heq] at hB ⊢
          rw [hashLS_head (stop_ne_hash hst)]
          exact hB
      have h2' : hasLSM true ((c :: r).drop (textLen (c :: r))) = false := by
        have hB := hasLSM_append_false ((c :: r).take (textLen (c :: r))) true
          ((c :: r).drop (textLen (c :: r))) (by rw [hsplit]; exact h2)
        rcases hstructure with hnil | ⟨c', v', heq, hst⟩
        · rw [hnil]; rfl
        · rw [heq] at hB ⊢
          rw [hasLSM_head hst]
          exact hB
      have hlen' : ((c :: r).drop (textLen (c :: r))).length ≤ f := by
        rw [List.length_drop]
        have hb := textLen_bounds (t := c :: r) (by simp)
        simp only [List.length_cons] at hf ⊢
        omega
      have ihv := ih _ hlen' h1' h2' h3' h4' h5'
      simp only [translateF, hstep, Renderer.text]
      rw [ihv]
      exact hsplit

theorem takeWhile_append_stop {p : Char → Bool} : ∀ w : List Char,
    (∀ c ∈ w, p c = true) → ∀ x : Char, p x = false → ∀ t : List Char,
      (w ++ x :: t).takeWhile p = w ∧ (w ++ x :: t).dropWhile p = x :: t := by
  intro w
  induction w with
  | nil =>
    intro _ x hx t
    constructor
    · simp [List.takeWhile_cons, hx]
    · simp [List.dropWhile_cons, hx]
  | cons c w' ih =>
    intro hw x hx t
    have hc : p c = true := hw c (by simp)
    have hrec := ih (fun a ha => hw a (by simp [ha])) x hx t
    constructor
    · simp [List.takeWhile_cons, hc, hrec.1]
    · simp [List.dropWhile_cons, hc, hrec.2]

theorem dropTrailBad_last {l : List Char} {c : Char} (h : isTrailBad c = false) :
    dropTrailBad (l ++ [c]) = l ++ [c] := by
  simp [dropTrailBad, List.reverse_append, List.dropWhile_cons, h]

theorem findIssueSplit_lit (r : List Char) :
    findIssueSplit (r ++ S "/issues/42") = some (r, S "42") := by
  induction r with
  | nil => rfl
  | cons c r' ih =>
    simp only [List.cons_append, findIssueSplit, List.append_eq, ih]

/-- Renderer with local repository `org/repo` and no product configured. -/
def rOrg : Renderer := ⟨S "org/repo", none⟩

/-- Renderer with local repository `org/repo` and product token `{{widgets}}`. -/
def rWidgets : Renderer := ⟨S "org/repo", some (S "\x7b\x7bwidgets\x7d\x7d")⟩

/-- Renderer with local repository `org/repo` and the no-heading sentinel. -/
def rNoHeading : Renderer := ⟨S "org/repo", some NO_HEADING⟩

/-- Renderer with local repository `r` and no product configured. -/
def rTiny : Renderer := ⟨S "r", none⟩

theorem c5_matchUrl (r : List Char) (hr : ∀ c ∈ r, urlChar c = true) :
    matchUrl (S "https://github.com/" ++ r ++ S "/issues/42") =
      some (S "https://github.com/" ++ r ++ S "/issues/42") := by
  have hsplit : S "https://github.com/" ++ r ++ S "/issues/42" =
      httpsScheme ++ (S "github.com/" ++ r ++ S "/issues/42") := rfl
  rw [hsplit]
  have hconc1 : ∀ c ∈ S "github.com/", urlChar c = true := by decide
  have hconc2 : ∀ c ∈ S "/issues/42", urlChar c = true := by decide
  have hall : ∀ c ∈ S "github.com/" ++ r ++ S "/issues/42", urlChar c = true := by
    intro c hc
    rcases List.mem_append.mp hc with hc1 | hc2
    · rcases List.mem_append.mp hc1 with hc3 | hc4
      · exact hconc1 c hc3
      · exact hr c hc4
    · exact hconc2 c hc2
  have hX : S "github.com/" ++ r ++ S "/issues/42" =
      (S "github.com/" ++ r ++ S "/issues/4") ++ ['2'] := by
    conv_lhs => rw [show S "/issues/42" = S "/issues/4" ++ ['2'] from rfl]
    rw [← List.append_assoc]
  have hdtb : dropTrailBad (S "github.com/" ++ r ++ S "/issues/42") =
      S "github.com/" ++ r ++ S "/issues/42" := by
    rw [hX, dropTrailBad_last (by decide)]
  have hlen : 2 ≤ (S "github.com/" ++ r ++ S "/issues/42").length := by
    simp only [List.length_append, show (S "github.com/").length = 11 from rfl,
      show (S "/issues/42").length = 10 from rfl]
    omega
  simp only [matchUrl, isPref_self_append, if_true, List.drop_left, urlCore,
    List.takeWhile_eq_self_iff.mpr hall, hdtb, hlen, if_pos]

theorem c5_parse (r : List Char) (hnl : r.any (fun c => decide (c = '\n')) = false) :
    issueUrlParse (S "https://github.com/" ++ r ++ S "/issues/42") =
      some (S "//github.com/" ++ r ++ S "/issues/42", r, S "42") := by
  have hsplit : S "https://github.com/" ++ r ++ S "/issues/42" =
      httpsColon ++ (S "//github.com/" ++ r ++ S "/issues/42") := rfl
  have hgh : ghHost (S "//github.com/" ++ r ++ S "/issues/42") =
      some (r ++ S "/issues/42") := rfl
  have htake : (S "//github.com/" ++ r ++ S "/issues/42").take 13 = S "//github.com/" := by
    rw [List.append_assoc, show (13 : Nat) = (S "//github.com/").length from rfl,
      List.take_left]
  simp only [issueUrlParse, hsplit, isPref_self_append, if_true, List.drop_left,
    hgh, findIssueSplit_lit, hnl, Bool.false_eq_true, if_false, htake]
  simp only [List.append_assoc]
  rw [show issuesLit ++ S "42" = S "/issues/42" from rfl]

theorem c5_translate (r : List Char) (hr : ∀ c ∈ r, urlChar c = true)
    (hne : ¬(r = S "org/repo")) :
    translate rOrg (S "https://github.com/" ++ r ++ S "/issues/42") =
      S "[" ++ r ++ S "#42](//github.com/" ++ r ++ S "/issues/42)" := by
  have hnl : r.any (fun c => decide (c = '\n')) = false := by
    rw [List.any_eq_false]
    intro x hx
    simp only [decide_eq_true_eq]
    intro hxe
    subst hxe
    exact absurd (hr '\n' hx) (by decide)
  have htne : ¬(S "https://github.com/" ++ r ++ S "/issues/42" = []) := by
    intro h
    have h2 := congrArg List.length h
    simp only [List.length_append, List.length_nil,
      show (S "https://github.com/").length = 19 from rfl] at h2
    omega
  rw [translate_cons rOrg htne]
  have hstep : step rOrg (S "https://github.com/" ++ r ++ S "/issues/42") =
      (rOrg.url (S "https://github.com/" ++ r ++ S "/issues/42"),
        (S "https://github.com/" ++ r ++ S "/issues/42").length) := by
    have hmh : matchHeading (S "https://github.com/" ++ r ++ S "/issues/42") = none := rfl
    have hmb : matchBullet (S "https://github.com/" ++ r ++ S "/issues/42") = none := rfl
    have hmc : matchChangeType (S "https://github.com/" ++ r ++ S "/issues/42") = none := rfl
    simp only [step, hmh, hmb, hmc, c5_matchUrl r hr]
  rw [hstep, List.drop_length]
  have hurl : rOrg.url (S "https://github.com/" ++ r ++ S "/issues/42") =
      '[' :: ((r ++ '#' :: S "42") ++ ']' :: '(' ::
        ((S "//github.com/" ++ r ++ S "/issues/42") ++ [')'])) := by
    simp only [Renderer.url, c5_parse r hnl]
    rw [if_neg]
    exact hne
  rw [hurl]
  show '[' :: ((r ++ '#' :: S "42") ++ ']' :: '(' ::
      ((S "//github.com/" ++ r ++ S "/issues/42") ++ [')'])) ++ translate rOrg [] =
    S "[" ++ r ++ S "#42](//github.com/" ++ r ++ S "/issues/42)"
  have e1 : S "42" = '4' :: '2' :: [] := rfl
  have e2 : S "//github.com/" = '/' :: '/' :: 'g' :: 'i' :: 't' :: 'h' :: 'u' :: 'b' ::
      '.' :: 'c' :: 'o' :: 'm' :: '/' :: [] := rfl
  have e3 : S "/issues/42" = '/' :: 'i' :: 's' :: 's' :: 'u' :: 'e' :: 's' :: '/' ::
      '4' :: '2' :: [] := rfl
  have e4 : S "[" = '[' :: [] := rfl
  have e5 : S "#42](//github.com/" = '#' :: '4' :: '2' :: ']' :: '(' :: '/' :: '/' ::
      'g' :: 'i' :: 't' :: 'h' :: 'u' :: 'b' :: '.' :: 'c' :: 'o' :: 'm' :: '/' :: [] := rfl
  have e6 : S "/issues/42)" = '/' :: 'i' :: 's' :: 's' :: 'u' :: 'e' :: 's' :: '/' ::
      '4' :: '2' :: ')' :: [] := rfl
  have e7 : translate rOrg [] = [] := rfl
  rw [e1, e2, e3, e4, e5, e6, e7]
  simp [List.cons_append, List.nil_append, List.append_assoc]

theorem marker_not_space {m : Char} (h : isMarker m = true) : isSpaceChar m = false := by
  simp only [isMarker, Bool.or_eq_true, decide_eq_true_eq] at h
  rcases h with (h | h) | h <;> subst h <;> decide

theorem c10_matchBullet (w : List Char) (hw : ∀ c ∈ w, isSpaceChar c = true)
    {m : Char} (hm : isMarker m = true) (rest : List Char) :
    matchBullet (w ++ m :: ' ' :: rest) = some (w, w.length + 2) := by
  have hs := takeWhile_append_stop w hw m (marker_not_space hm) (' ' :: rest)
  simp only [matchBullet, hs.1, hs.2, hm, nextSp, decide_True, Bool.and_self, if_true]

theorem c8_split (R : Renderer) (u v : List Char) (hu : ∀ c ∈ u, ¬(c = '\n')) :
    translate R ('#' :: u ++ '\n' :: v) =
      R.heading ('#' :: u) ++ translate R ('\n' :: v) := by
  have hu' : ∀ c ∈ u, (fun x => !decide (x = '\n')) c = true := by
    intro c hc
    simp [hu c hc]
  have htw := takeWhile_append_stop u hu' '\n' (by simp) v
  have hmh : matchHeading ('#' :: (u ++ '\n' :: v)) = some ('#' :: u) := by
    have h0 : matchHeading ('#' :: (u ++ '\n' :: v)) =
        some ('#' :: (u ++ '\n' :: v).takeWhile (fun x => !decide (x = '\n'))) := rfl
    rw [h0, htw.1]
  have hstep : step R ('#' :: (u ++ '\n' :: v)) =
      (R.heading ('#' :: u), ('#' :: u).length) := by
    simp only [step, hmh]
  have hne : ¬(('#' :: (u ++ '\n' :: v)) = ([] : List Char)) := by simp
  rw [List.cons_append, translate_cons R hne, hstep]
  congr 1
  show translate R (('#' :: (u ++ '\n' :: v)).drop (u.length + 1)) = translate R ('\n' :: v)
  rw [List.drop_succ_cons, List.drop_left]

theorem getLast?_append_right (l1 : List Char) {l2 : List Char} (h : l2 ≠ []) :
    (l1 ++ l2).getLast? = l2.getLast? := by
  rw [List.getLast?_append]
  obtain ⟨x, hx⟩ := Option.isSome_iff_exists.mp (List.getLast?_isSome.mpr h)
  simp [hx]

theorem isSuf_git_newline {l : List Char} (h : l.getLast? = some '\n') :
    isSuf gitSuf l = false := by
  cases hrev : l.reverse with
  | nil =>
    rw [List.reverse_eq_nil_iff] at hrev
    subst hrev
    simp at h
  | cons a tl =>
    have ha : a = '\n' := by
      have hh := List.head?_reverse l
      rw [hrev, h] at hh
      simpa using hh
    subst ha
    simp only [isSuf, hrev]
    rfl

theorem matchRepoTail_eq (r : List Char) :
    matchRepoTail r = (if shapeTail (stripNl r) = true then
      some ((stripNl r).take ((stripNl r).length - 4)) else none) := by
  simp only [matchRepoTail]
  split
  · rename_i h1
    split
    · rename_i h2
      have hs : shapeTail (stripNl r) = false := by simp [shapeTail, h1, h2]
      simp [hs]
    · rename_i h2
      have h2' : ((stripNl r).take ((stripNl r).length - 4)).any
          (fun c => decide (c = '\n')) = false := by
        cases hx : ((stripNl r).take ((stripNl r).length - 4)).any
            (fun c => decide (c = '\n')) with
        | false => rfl
        | true => exact absurd hx h2
      have hs : shapeTail (stripNl r) = true := by simp [shapeTail, h1, h2']
      simp [hs]
  · rename_i h1
    have h1' : isSuf gitSuf (stripNl r) = false := by
      cases hx : isSuf gitSuf (stripNl r) with
      | false => rfl
      | true => exact absurd hx h1
    have hs : shapeTail (stripNl r) = false := by simp [shapeTail, h1']
    simp [hs]

theorem dsn_ssh (r : List Char) :
    declaredShapeNl (sshPre ++ r) = shapeTail (stripNl r) := by
  cases hlast : r.getLast? with
  | none =>
    have hr0 : r = [] := List.getLast?_eq_none_iff.mp hlast
    subst hr0
    decide
  | some c =>
    have hrne : r ≠ [] := by
      intro h0
      rw [h0] at hlast
      simp at hlast
    have hgl := getLast?_append_right sshPre hrne
    have hdl := List.dropLast_append_of_ne_nil sshPre hrne
    by_cases hc : c = '\n'
    · subst hc
      have hsuf : isSuf gitSuf r = false := isSuf_git_newline hlast
      simp [declaredShapeNl, declaredShape, hgl, hlast, hdl, isPref_self_append,
        show isPref httpsRepoPre (sshPre ++ r) = false from rfl,
        show isPref httpsRepoPre (sshPre ++ r.dropLast) = false from rfl,
        List.drop_left, stripNl, shapeTail, hsuf]
    · simp [declaredShapeNl, declaredShape, hgl, hlast, hdl, isPref_self_append,
        show isPref httpsRepoPre (sshPre ++ r) = false from rfl,
        List.drop_left, stripNl, hc]

theorem dsn_https (r : List Char) :
    declaredShapeNl (httpsRepoPre ++ r) = shapeTail (stripNl r) := by
  cases hlast : r.getLast? with
  | none =>
    have hr0 : r = [] := List.getLast?_eq_none_iff.mp hlast
    subst hr0
    decide
  | some c =>
    have hrne : r ≠ [] := by
      intro h0
      rw [h0] at hlast
      simp at hlast
    have hgl := getLast?_append_right httpsRepoPre hrne
    have hdl := List.dropLast_append_of_ne_nil httpsRepoPre hrne
    by_cases hc : c = '\n'
    · subst hc
      have hsuf : isSuf gitSuf r = false := isSuf_git_newline hlast
      simp [declaredShapeNl, declaredShape, hgl, hlast, hdl, isPref_self_append,
        show isPref sshPre (httpsRepoPre ++ r) = false from rfl,
        show isPref sshPre (httpsRepoPre ++ r.dropLast) = false from rfl,
        List.drop_left, stripNl, shapeTail, hsuf]
    · simp [declaredShapeNl, declaredShape, hgl, hlast, hdl, isPref_self_append,
        show isPref sshPre (httpsRepoPre ++ r) = false from rfl,
        List.drop_left, stripNl, hc]

theorem cap_ssh (r : List Char) :
    declaredCapture (sshPre ++ r) = (stripNl r).take ((stripNl r).length - 4) := by
  cases hlast : r.getLast? with
  | none =>
    have hr0 : r = [] := List.getLast?_eq_none_iff.mp hlast
    subst hr0
    decide
  | some c =>
    have hrne : r ≠ [] := by
      intro h0
      rw [h0] at hlast
      simp at hlast
    have hgl := getLast?_append_right sshPre hrne
    have hdl := List.dropLast_append_of_ne_nil sshPre hrne
    by_cases hc : c = '\n'
    · subst hc
      simp [declaredCapture, stripNl, hgl, hlast, hdl, isPref_self_append,
        List.drop_left]
    · simp [declaredCapture, stripNl, hgl, hlast, hdl, isPref_self_append,
        List.drop_left, hc]

theorem cap_https (r : List Char) :
    declaredCapture (httpsRepoPre ++ r) = (stripNl r).take ((stripNl r).length - 4) := by
  cases hlast : r.getLast? with
  | none =>
    have hr0 : r = [] := List.getLast?_eq_none_iff.mp hlast
    subst hr0
    decide
  | some c =>
    have hrne : r ≠ [] := by
      intro h0
      rw [h0] at hlast
      simp at hlast
    have hgl := getLast?_append_right httpsRepoPre hrne
    have hdl := List.dropLast_append_of_ne_nil httpsRepoPre hrne
    by_cases hc : c = '\n'
    · subst hc
      simp [declaredCapture, stripNl, hgl, hlast, hdl,
        show isPref sshPre (httpsRepoPre ++ r.dropLast) = false from rfl,
        List.drop_left]
    · simp [declaredCapture, stripNl, hgl, hlast, hdl,
        show isPref sshPre (httpsRepoPre ++ r) = false from rfl,
        List.drop_left, hc]

theorem isPref_dropLast_false {p u : List Char} {c : Char}
    (hlast : u.getLast? = some c) (hp : isPref p u = false) :
    isPref p u.dropLast = false := by
  cases hd : isPref p u.dropLast with
  | false => rfl
  | true =>
    exfalso
    have hune : u ≠ [] := by
      intro h0
      rw [h0] at hlast
      simp at hlast
    have hu : u.dropLast ++ [u.getLast hune] = u := List.dropLast_append_getLast hune
    have := isPref_extend [u.getLast hune] hd
    rw [hu, hp] at this
    cases this

/-- CLAIM C7 (amended). `find_local_repo` succeeds exactly on the strings of
the ssh shape `git@github.com:<owner/repo>.git` or the https shape
`https://github.com/<owner/repo>.git` — where `<owner/repo>` is any
newline-free (possibly empty) string and one trailing newline after `.git`
is tolerated (Python `$`) — returning the captured `<owner/repo>`; every
other string raises the lookup error. -/
theorem find_local_repo_shape (u : List Char) :
    find_local_repo u =
      (if declaredShapeNl u = true then Except.ok (declaredCapture u)
       else Except.error (S "Can\x27t figure local repo from remote URL " ++ u)) := by
  by_cases hss : isPref sshPre u = true
  · obtain ⟨r, hu⟩ : ∃ r, u = sshPre ++ r := ⟨u.drop sshPre.length, (isPref_parts hss).symm⟩
    subst hu
    have hmr : matchRemote (sshPre ++ r) = matchRepoTail r := by
      simp [matchRemote, isPref_self_append, List.drop_left]
    simp only [find_local_repo, hmr, matchRepoTail_eq, dsn_ssh, cap_ssh]
    cases hs : shapeTail (stripNl r) with
    | true => simp [hs]
    | false => simp [hs]
  · have hss' : isPref sshPre u = false := by
      cases hx : isPref sshPre u with
      | false => rfl
      | true => exact absurd hx hss
    by_cases hht : isPref httpsRepoPre u = true
    · obtain ⟨r, hu⟩ : ∃ r, u = httpsRepoPre ++ r :=
        ⟨u.drop httpsRepoPre.length, (isPref_parts hht).symm⟩
      subst hu
      have hmr : matchRemote (httpsRepoPre ++ r) = matchRepoTail r := by
        simp [matchRemote, show isPref sshPre (httpsRepoPre ++ r) = false from rfl,
          isPref_self_append, List.drop_left]
      simp only [find_local_repo, hmr, matchRepoTail_eq, dsn_https, cap_https]
      cases hs : shapeTail (stripNl r) with
      | true => simp [hs]
      | false => simp [hs]
    · have hht' : isPref httpsRepoPre u = false := by
        cases hx : isPref httpsRepoPre u with
        | false => rfl
        | true => exact absurd hx hht
      have hmr : matchRemote u = none := by
        simp [matchRemote, hss', hht']
      have hds : declaredShape u = false := by
        simp [declaredShape, hss', hht']
      have hdsn : declaredShapeNl u = false := by
        simp only [declaredShapeNl, hds, Bool.false_or]
        cases hlast : u.getLast? with
        | none => rfl
        | some c =>
          by_cases hc : c = '\n'
          · subst hc
            have h1 := isPref_dropLast_false hlast hss'
            have h2 := isPref_dropLast_false hlast hht'
            simp [declaredShape, h1, h2]
          · simp [hc]
      simp [find_local_repo, hmr, hdsn]

/-- CLAIM C1 (counterexample). The end-to-end scenario of the claim is off by
one newline: the heading rule's span stops before the newline ending the
heading line, the renderer emits its own newline, and the original newline is
then captured by the bullet rule's whitespace group, so the output carries a
blank line between the heading and the bullet.  The claimed output (a single
newline after the heading) is therefore not produced. -/
theorem c1_counterexample :
    ¬(translate rWidgets (S "## 1.2.0\n- [added] Support for X (#12)\n") =
      S "### \x7b\x7bwidgets\x7d\x7d\n* \x7b\x7bfeature\x7d\x7d Support for X ([#12](//github.com/org/repo/issues/12))\n") := by
  decide

/-- CLAIM C1 (amended). With the Renderer configured with product token
`{{widgets}}` and local repository `org/repo`, the input
`"## 1.2.0\n- [added] Support for X (#12)\n"` translates to
`"### {{widgets}}\n\n* {{feature}} Support for X ([#12](//github.com/org/repo/issues/12))\n"`
— with a blank line after the heading. -/
theorem c1_end_to_end :
    translate rWidgets (S "## 1.2.0\n- [added] Support for X (#12)\n") =
      S "### \x7b\x7bwidgets\x7d\x7d\n\n* \x7b\x7bfeature\x7d\x7d Support for X ([#12](//github.com/org/repo/issues/12))\n" := by
  decide

/-- CLAIM C2. Progress and termination: the lengths of the matched spans of a
translation are all at least 1 and sum to the length of the input, so every
iteration strictly shrinks the remaining text, no character is skipped or
consumed twice, and the loop terminates; in particular any fuel of at least
the input length computes the (same) total translation. -/
theorem c2_progress_coverage (R : Renderer) (t : List Char) :
    (spans R t).sum = t.length ∧
    (spans R t).all (fun n => decide (1 ≤ n)) = true ∧
    (∀ f, t.length ≤ f → translateF R f t = translate R t) := by
  obtain ⟨h1, h2⟩ := spansF_facts R t.length t (Nat.le_refl _)
  exact ⟨h1, h2, fun f hf => translateF_congr R f t.length t hf (Nat.le_refl _)⟩

/-- Witness for C2 at a concrete renderer, input and fuel. -/
theorem c2_progress_coverage_witness :
    translateF rOrg 5 (S "ab") = translate rOrg (S "ab") ∧
      (spans rOrg (S "ab")).sum = (S "ab").length :=
  ⟨(c2_progress_coverage rOrg (S "ab")).2.2 5 (by decide),
    (c2_progress_coverage rOrg (S "ab")).1⟩

/-- CLAIM C3. Passthrough identity: an input with no `#` at a line start, no
list marker at a (possibly whitespace-indented) line start, no bracketed word
`[word]`, no `http://` or `https://` scheme, and no parenthesized `(#digits)`
reference is translated to itself, for every Renderer configuration. -/
theorem c3_passthrough (R : Renderer) (t : List Char)
    (h1 : hashLS true t = false) (h2 : hasLSM true t = false)
    (h3 : hasBracketWord t = false) (h4 : hasUrlSub t = false)
    (h5 : hasIssueRef t = false) :
    translate R t = t :=
  passthroughF R t.length t (Nat.le_refl _) h1 h2 h3 h4 h5

/-- Witness for C3: a concrete trigger-free input is returned verbatim. -/
theorem c3_passthrough_witness :
    hashLS true (S "Release notes text.\nAnother line of text.") = false ∧
    hasLSM true (S "Release notes text.\nAnother line of text.") = false ∧
    hasBracketWord (S "Release notes text.\nAnother line of text.") = false ∧
    hasUrlSub (S "Release notes text.\nAnother line of text.") = false ∧
    hasIssueRef (S "Release notes text.\nAnother line of text.") = false ∧
    translate rOrg (S "Release notes text.\nAnother line of text.") =
      S "Release notes text.\nAnother line of text." :=
  ⟨by decide, by decide, by decide, by decide, by decide,
    c3_passthrough rOrg (S "Release notes text.\nAnother line of text.")
      (by decide) (by decide) (by decide) (by decide) (by decide)⟩

/-- CLAIM C4. Heading rendering policy: with the no-heading sentinel the
rendered heading is empty; with a (truthy, non-sentinel) product token `p`
the rendered heading is `### p\n` whatever the raw heading line was; with no
product configured the raw heading line passes through unchanged. -/
theorem c4_heading_policy (repo h : List Char) :
    (Renderer.heading ⟨repo, some NO_HEADING⟩ h = []) ∧
    (∀ p : List Char, ¬(p = []) → ¬(p = NO_HEADING) →
      Renderer.heading ⟨repo, some p⟩ h = S "### " ++ p ++ ['\n']) ∧
    (Renderer.heading ⟨repo, none⟩ h = h) := by
  refine ⟨rfl, ?_, rfl⟩
  intro p hp1 hp2
  simp [Renderer.heading, hp1, hp2]

/-- Witness for C4 at a concrete product token and heading line. -/
theorem c4_heading_policy_witness :
    Renderer.heading ⟨S "org/repo", some (S "\x7b\x7bauth\x7d\x7d")⟩ (S "## 9.9.9") =
      S "### " ++ S "\x7b\x7bauth\x7d\x7d" ++ ['\n'] :=
  (c4_heading_policy (S "org/repo") (S "## 9.9.9")).2.1 (S "\x7b\x7bauth\x7d\x7d")
    (by decide) (by decide)

/-- CLAIM C5. Issue links, local versus foreign: with local repository
`org/repo`, the bare url `https://github.com/org/repo/issues/42` translates
to `[#42](//github.com/org/repo/issues/42)`; for every repo part `r` of the
same shape (no whitespace, no `<`) different from `org/repo`, the analogous
url translates to `[r#42](//github.com/r/issues/42)`; and every url on which
the issue-tracker pattern fails passes through `Renderer.url` unchanged. -/
theorem c5_issue_links :
    (translate rOrg (S "https://github.com/org/repo/issues/42") =
      S "[#42](//github.com/org/repo/issues/42)") ∧
    (∀ r : List Char, (∀ c ∈ r, urlChar c = true) → ¬(r = S "org/repo") →
      translate rOrg (S "https://github.com/" ++ r ++ S "/issues/42") =
        S "[" ++ r ++ S "#42](//github.com/" ++ r ++ S "/issues/42)") ∧
    (∀ u : List Char, issueUrlParse u = none → Renderer.url rOrg u = u) := by
  refine ⟨by decide, c5_translate, ?_⟩
  intro u hu
  simp [Renderer.url, hu]

/-- Witness for C5 at the foreign repository `other/repo` and at a
non-issue url. -/
theorem c5_issue_links_witness :
    translate rOrg (S "https://github.com/" ++ S "other/repo" ++ S "/issues/42") =
      S "[" ++ S "other/repo" ++ S "#42](//github.com/" ++ S "other/repo" ++ S "/issues/42)" ∧
    Renderer.url rOrg (S "https://example.com/x") = S "https://example.com/x" :=
  ⟨c5_issue_links.2.1 (S "other/repo") (by decide) (by decide),
    c5_issue_links.2.2 (S "https://example.com/x") (by decide)⟩

/-- CLAIM C6. Tag macros: `[feature]` translates to `{{feature}}` (unmapped
words are wrapped unchanged), `[added]` translates to `{{feature}}` (synonym
table), and `[fixed](link)` is rejected by the tag rule's negative lookahead
and passes through the text rules verbatim. -/
theorem c6_tag_macros :
    translate rOrg (S "[feature]") = S "\x7b\x7bfeature\x7d\x7d" ∧
    translate rOrg (S "[added]") = S "\x7b\x7bfeature\x7d\x7d" ∧
    translate rOrg (S "[fixed](link)") = S "[fixed](link)" :=
  ⟨by decide, by decide, by decide⟩

/-- CLAIM C7 (counterexample). The string `git@github.com:org/repo.git\n`
matches neither declared shape (it carries a trailing newline), yet
`find_local_repo` succeeds on it instead of raising the lookup error,
because Python `$` also matches just before a final newline. -/
theorem c7_counterexample :
    declaredShape (S "git@github.com:org/repo.git\n") = false ∧
    find_local_repo (S "git@github.com:org/repo.git\n") = Except.ok (S "org/repo") :=
  ⟨by decide, by rfl⟩

/-- CLAIM C8. The heading rule's span excludes the trailing newline: for
every input `#<line>\n<tail>` with `<line>` newline-free, the translation is
the rendered heading followed by the translation of `\n<tail>`, so the
original newline survives; in particular with the no-heading sentinel,
`translate "# t\nX"` is `"\nX"`, not `"X"`. -/
theorem c8_heading_excludes_newline :
    (∀ (R : Renderer) (u v : List Char), (∀ c ∈ u, ¬(c = '\n')) →
      translate R ('#' :: u ++ '\n' :: v) =
        R.heading ('#' :: u) ++ translate R ('\n' :: v)) ∧
    translate rNoHeading (S "# t\nX") = S "\nX" :=
  ⟨c8_split, by decide⟩

/-- Witness for C8 at the concrete heading line `# t` and tail `X`. -/
theorem c8_heading_excludes_newline_witness :
    translate rNoHeading ('#' :: S " t" ++ '\n' :: S "X") =
      Renderer.heading rNoHeading ('#' :: S " t") ++ translate rNoHeading ('\n' :: S "X") :=
  c8_heading_excludes_newline.1 rNoHeading (S " t") (S "X") (by decide)

/-- CLAIM C9. Non-TLS issue urls are never rewritten: `Renderer.url` returns
any string beginning with `http://` unchanged (the rewrite pattern only
allows an optional `https:` scheme), while the Translator's url rule still
matches both `http` and `https` urls. -/
theorem c9_non_tls :
    (∀ (rd : Renderer) (rest : List Char),
      rd.url ('h' :: 't' :: 't' :: 'p' :: ':' :: '/' :: '/' :: rest) =
        'h' :: 't' :: 't' :: 'p' :: ':' :: '/' :: '/' :: rest) ∧
    translate rOrg (S "http://github.com/org/repo/issues/42") =
      S "http://github.com/org/repo/issues/42" ∧
    (matchUrl (S "http://github.com/org/repo/issues/42")).isSome = true ∧
    (matchUrl (S "https://github.com/org/repo/issues/42")).isSome = true := by
  refine ⟨?_, by decide, by decide, by decide⟩
  intro rd rest
  rfl

/-- CLAIM C10. The bullet rule is not restricted to line starts: it fires on
any remaining text made of whitespace, a marker and a space, so after a
previously consumed span a mid-line marker is rewritten; concretely, with
local repository `r`, `translate "(#1) - x"` is
`"([#1](//github.com/r/issues/1)) * x"`. -/
theorem c10_bullet_midline :
    (∀ w : List Char, (∀ c ∈ w, isSpaceChar c = true) → ∀ m : Char,
      isMarker m = true → ∀ rest : List Char,
      matchBullet (w ++ m :: ' ' :: rest) = some (w, w.length + 2)) ∧
    translate rTiny (S "(#1) - x") = S "([#1](//github.com/r/issues/1)) * x" :=
  ⟨fun w hw m hm rest => c10_matchBullet w hw hm rest, by decide⟩

/-- Witness for C10 at one space of indentation and marker `-`. -/
theorem c10_bullet_midline_witness :
    matchBullet ([' '] ++ '-' :: ' ' :: S "x") = some ([' '], 3) :=
  c10_bullet_midline.1 [' '] (by decide) '-' (by decide) (S "x")

end ReleaseNotes
